import Mathlib

/-!
Verification of the CrypTick runtime core (`src/app.py`).

Python strings are modelled as lists of characters, Python floats as exact
rationals (prices stay in ranges where the two agree on every claim checked
here), Python dicts as association lists with insert-overwrite semantics, and
the asynchronous scheduler loop as an explicit step function over a round
outcome.
-/

set_option linter.unusedVariables false

namespace CrypTick

/-- Python strings are modelled as their list of characters. -/
abbrev Str := List Char

/-- Character list of a Lean string literal, for concrete test inputs. -/
def str (s : String) : Str := s.data

/-- `normalize_address` from `app.py`: an empty address is returned unchanged;
an address with the hex-style prefix `0x` is lower-cased (`str.lower`,
modelled on the ASCII range by `Char.toLower`); any other address is returned
as is.  The network id is ignored, as in the source. -/
def normalize_address (net_id : Str) (addr : Str) : Str :=
  if addr = [] then addr
  else if ['0', 'x'].isPrefixOf addr then addr.map Char.toLower
  else addr

/-- `key_for` from `app.py`: `f"{net_id}:{normalize_address(net_id, addr)}"`. -/
def key_for (net_id : Str) (addr : Str) : Str :=
  net_id ++ ':' :: normalize_address net_id addr

/-- Decimal digits of a natural number, most significant digit first
(fuel-based structural recursion). -/
def natDigitsAux : Nat → Nat → List Char
  | 0, _ => []
  | _ + 1, 0 => []
  | fuel + 1, n => natDigitsAux fuel (n / 10) ++ [Char.ofNat (48 + n % 10)]

/-- Decimal digit string of a natural number. -/
def natDigits (n : Nat) : List Char :=
  if n = 0 then ['0'] else natDigitsAux (n + 1) n

/-- Walk the reversed digit list inserting `,` before every later group of
three digits. -/
def group3Aux : Nat → List Char → List Char
  | _, [] => []
  | i, c :: rest =>
    (if 0 < i ∧ i % 3 = 0 then [',', c] else [c]) ++ group3Aux (i + 1) rest

/-- Thousands grouping of an integer digit string, as in Python `f"{x:,}"`. -/
def group3 (ds : List Char) : List Char := (group3Aux 0 ds.reverse).reverse

/-- Round `q * 10^d` to the nearest integer, ties to even: the rounding that
Python fixed-point formatting applies to the value. -/
def roundHalfEvenScaled (q : ℚ) (d : Nat) : Int :=
  let n : Int := q.num * (10 : Int) ^ d
  let den : Int := (q.den : Int)
  let q0 : Int := Int.fdiv n den
  let r : Int := n - den * q0
  if 2 * r < den then q0
  else if den < 2 * r then q0 + 1
  else if q0 % 2 = 0 then q0 else q0 + 1

/-- Python `f"{p:.df}"` (and `f"{p:,.df}"` when `grouped`) on a rational:
fixed-point rendering with `d` decimals, round-half-even, optional thousands
grouping of the integer part. -/
def formatFixed (q : ℚ) (d : Nat) (grouped : Bool) : List Char :=
  let s := roundHalfEvenScaled q d
  let sign : List Char := if s < 0 then ['-'] else []
  let a := s.natAbs
  let ip := a / 10 ^ d
  let fp := a % 10 ^ d
  let ipChars := if grouped then group3 (natDigits ip) else natDigits ip
  let fpDigits := natDigits fp
  let fpChars := List.replicate (d - fpDigits.length) '0' ++ fpDigits
  if d = 0 then sign ++ ipChars else sign ++ ipChars ++ '.' :: fpChars

/-- Python `str.rstrip("0")`. -/
def rstripZeros (l : List Char) : List Char :=
  (l.reverse.dropWhile (fun c => c == '0')).reverse

/-- Python `str.rstrip(".")`. -/
def rstripDot (l : List Char) : List Char :=
  (l.reverse.dropWhile (fun c => c == '.')).reverse

/-- `price_str` from `app.py`: placeholder for an absent price; `>= 100` two
decimals with grouping; `>= 1` three decimals; `>= 0.1` four decimals;
otherwise eight decimals with trailing zeros and a dangling decimal point
stripped — all behind a `$` marker. -/
def price_str (p : Option ℚ) : Str :=
  match p with
  | none => str "—"
  | some p =>
    if 100 ≤ p then '$' :: formatFixed p 2 true
    else if 1 ≤ p then '$' :: formatFixed p 3 true
    else if mkRat 1 10 ≤ p then '$' :: formatFixed p 4 false
    else '$' :: rstripDot (rstripZeros (formatFixed p 8 false))

/-- `short_addr` from `app.py`: addresses of more than 10 characters are
shortened to the first 6 characters, an ellipsis, and the last 4. -/
def short_addr (addr : Str) : Str :=
  if addr.length ≤ 10 then addr
  else addr.take 6 ++ '…' :: addr.drop (addr.length - 4)

/-- Python `str.strip()`: whitespace removed from both ends. -/
def pyStrip (l : List Char) : List Char :=
  ((l.dropWhile Char.isWhitespace).reverse.dropWhile Char.isWhitespace).reverse

/-- Display-name resolution from `Controller._build_monitor_items`:
`name = token_names.get(base_key) or short_addr(address)` (Python `or`, so an
empty cached name falls through), overridden by the stripped custom name when
the group's `use_custom_names` is set and the stripped custom name is
non-empty. -/
def build_item_name (use_custom_names : Bool) (custom_name : Str)
    (cached_name : Option Str) (addr : Str) : Str :=
  let name :=
    match cached_name with
    | some s => if s = [] then short_addr addr else s
    | none => short_addr addr
  if use_custom_names && pyStrip custom_name != [] then pyStrip custom_name
  else name

/-- A token of a profile (`{network_id, address, custom_name}`). -/
structure Token where
  network_id : Str
  address : Str
  custom_name : Str
deriving DecidableEq

/-- The per-profile settings relevant to the scheduler and renderer
(`_ensure_profile_settings` keys used by `Controller`). -/
structure ProfileSettings where
  monitor_index : Option Int
  opacity : ℚ
  click_through : Bool
  show_logo : Bool
  refresh_sec : Int
  use_custom_names : Bool
deriving DecidableEq

/-- A profile (group): name, ordered token list, settings.  Profiles live in a
`dict` in the source, so declaration order is the list order here. -/
structure Profile where
  name : Str
  tokens : List Token
  settings : ProfileSettings
deriving DecidableEq

/-- `defaultdict(list)` append: extend the list at key `m`, adding the key at
the end of the dict on first touch. -/
def insertAppend (acc : List (Int × List Profile)) (m : Int) (p : Profile) :
    List (Int × List Profile) :=
  match acc with
  | [] => [(m, [p])]
  | (k, l) :: rest =>
    if k = m then (k, l ++ [p]) :: rest else (k, l) :: insertAppend rest m p

/-- One step of building `mon_to_profiles`: record a profile under its
monitor index iff the index is not `None` and the token list is non-empty. -/
def monStep (acc : List (Int × List Profile)) (p : Profile) :
    List (Int × List Profile) :=
  match p.settings.monitor_index with
  | none => acc
  | some m => if p.tokens.isEmpty then acc else insertAppend acc m p

/-- The `mon_to_profiles` map built identically in `Controller.start_all` and
`Controller.refresh_loop`: iterate profiles in declaration order, applying
`monStep`. -/
def mon_to_profiles (ps : List Profile) : List (Int × List Profile) :=
  ps.foldl monStep []

/-- Lookup in the monitor map; a missing monitor has no profiles. -/
def lookupMon (d : List (Int × List Profile)) (m : Int) : List Profile :=
  match d with
  | [] => []
  | (k, l) :: rest => if k = m then l else lookupMon rest m

/-- Spec-side description of the assignment for one display: the groups with
display target `m` and a non-empty token list, in declaration order. -/
def assigned_filter (ps : List Profile) (m : Int) : List Profile :=
  ps.filter
    (fun p => decide (p.settings.monitor_index = some m) && !p.tokens.isEmpty)

/-- All assigned groups (non-null display target, non-empty token list), in
declaration order. -/
def assignedAll (ps : List Profile) : List Profile :=
  ps.filter (fun p => p.settings.monitor_index.isSome && !p.tokens.isEmpty)

/-- The round interval computed at the top of a `Controller.refresh_loop`
round: fold `max` of `refresh_sec` over the grouped assigned profiles
starting from 0, then `R = max(R, 10)`. -/
def round_interval (ps : List Profile) : Int :=
  let R := (mon_to_profiles ps).foldl
    (fun r pr => pr.2.foldl (fun r2 p => max r2 p.settings.refresh_sec) r) 0
  max R 10

/-- Click-through aggregation in `Controller.start_all`: `all(...)` over the
profiles grouped under the monitor (which all have non-empty token lists). -/
def click_through_start (ps : List Profile) (m : Int) : Bool :=
  (lookupMon (mon_to_profiles ps) m).all (fun p => p.settings.click_through)

/-- Click-through aggregation in a `Controller.refresh_loop` round:
`all(...) if profiles else True` over every profile whose monitor index
equals `m`, regardless of its token list. -/
def click_through_round (ps : List Profile) (m : Int) : Bool :=
  let profiles := ps.filter (fun p => decide (p.settings.monitor_index = some m))
  if profiles.isEmpty then true
  else profiles.all (fun p => p.settings.click_through)

/-- The mode/offset state of `MonitorTicker`. -/
structure MarqueeState where
  marquee : Bool
  offset : Int
deriving DecidableEq

/-- `MonitorTicker._update_marquee_state`: scrolling is requested iff there
are more than 10 items or the track's natural width exceeds the container
width minus the 20px margin; leaving marquee mode resets the offset. -/
def update_marquee_state (nItems : Nat) (trackWidth containerWidth : Int)
    (st : MarqueeState) : MarqueeState :=
  let tooMany := decide (10 < nItems)
  let wider := decide (containerWidth - 20 < trackWidth)
  let req := tooMany || wider
  let offset := if !req && st.marquee then 0 else st.offset
  { marquee := req, offset := offset }

/-- A `PriceSample`: any field may be absent. -/
structure PriceSample where
  price : Option ℚ
  h24 : Option ℚ
  m5 : Option ℚ
deriving DecidableEq, Inhabited

/-- One token record of a successful batch response.  The source's numeric
parsing (`float(...)` guarded by `try/except`, pool lookup for the percent
changes) is modelled by the already-parsed optional fields. -/
structure RespTok where
  address : Str
  price_usd : Option ℚ
  h24 : Option ℚ
  m5 : Option ℚ
deriving DecidableEq

/-- A Python exception value. -/
structure PyExc where
  msg : Str
deriving DecidableEq

/-- The per-group result cache `last_results[pname]`. -/
abbrev Results := List (Str × PriceSample)

/-- Association-list model of a Python dict (`d[k] = v`): overwrite in place,
append a new key at the end. -/
def dInsert (d : Results) (k : Str) (v : PriceSample) : Results :=
  match d with
  | [] => [(k, v)]
  | (k0, v0) :: rest =>
    if k0 = k then (k0, v) :: rest else (k0, v0) :: dInsert rest k v

/-- Dict lookup (`d.get(k)`). -/
def dGet (d : Results) (k : Str) : Option PriceSample :=
  match d with
  | [] => none
  | (k0, v0) :: rest => if k0 = k then some v0 else dGet rest k

/-- The keys of a dict. -/
def dKeys (d : Results) : List Str := d.map Prod.fst

/-- Python `d.update(other)`: insert every entry of `other`, in order,
overwriting present keys and never removing any. -/
def dUpdate (d other : Results) : Results :=
  other.foldl (fun acc kv => dInsert acc kv.1 kv.2) d

/-- Left-biased choice on options (`x or y` on dict lookups). -/
def oOr {α : Type} : Option α → Option α → Option α
  | some v, _ => some v
  | none, b => b

/-- Per-network batch processing inside one group round of
`Controller.refresh_loop`: a failed request (non-200 status or transport
error, both `continue`) leaves the accumulated `all_results` untouched; a
successful payload inserts one parsed sample per returned token record under
its canonical key. -/
def process_net (net : Str) (resp : Except PyExc (List RespTok))
    (all_results : Results) : Results :=
  match resp with
  | .error _ => all_results
  | .ok toks =>
    toks.foldl
      (fun acc r =>
        let address := normalize_address net r.address
        let base_key := key_for net address
        dInsert acc base_key ⟨r.price_usd, r.h24, r.m5⟩)
      all_results

/-- The `all_results` dict of one group's fetch round: process each network
batch in first-seen order, accumulating from an empty dict. -/
def collect_results (nets : List (Str × Except PyExc (List RespTok))) :
    Results :=
  nets.foldl (fun acc nr => process_net nr.1 nr.2 acc) []

/-- One group's fetch round: collect `all_results` over the networks, then
`last_results[pname].update(all_results)`. -/
def run_group_round (cache : Results)
    (nets : List (Str × Except PyExc (List RespTok))) : Results :=
  dUpdate cache (collect_results nets)

/-- Events emitted by the scheduler loop that the claims observe. -/
inductive SchedEvent
  | logError : PyExc → SchedEvent
  | sleep : ℚ → SchedEvent
  | ensureSession : SchedEvent
  | status : Str → SchedEvent
deriving DecidableEq

/-- Scheduler state: the aiohttp session (a closed or absent session is
`none`) and a counter naming fresh sessions. -/
structure SchedState where
  session : Option Nat
  nextSession : Nat
deriving DecidableEq

/-- `Controller._ensure_session`: a new client session is created only when
none is alive. -/
def ensure_session (s : SchedState) : SchedState :=
  match s.session with
  | some _ => s
  | none => { session := some s.nextSession, nextSession := s.nextSession + 1 }

/-- The `try/except Exception` wrapper around one round of
`Controller.refresh_loop`: a raised exception is caught at the round
boundary, logged, followed by `await asyncio.sleep(2)` and
`self._ensure_session()`, after which the loop continues. -/
def try_round (body : SchedState → Except PyExc (SchedState × List SchedEvent))
    (s : SchedState) : SchedState × List SchedEvent :=
  match body s with
  | .ok r => r
  | .error e => (ensure_session s, [.logError e, .sleep 2, .ensureSession])

/-- The `while True` scheduler loop, run for `n` rounds with round counter
`k`; an exception escaping a round would abort the whole loop with
`.error`. -/
def run_refresh_loop
    (body : Nat → SchedState → Except PyExc (SchedState × List SchedEvent)) :
    Nat → Nat → SchedState → Except PyExc (SchedState × List (List SchedEvent))
  | 0, _, s => .ok (s, [])
  | n + 1, k, s =>
    let r := try_round (body k) s
    match run_refresh_loop body n (k + 1) r.1 with
    | .ok (sf, rest) => .ok (sf, r.2 :: rest)
    | .error e => .error e

/-- All profiles stored in a monitor map, flattened in bucket order. -/
def flatVals (d : List (Int × List Profile)) : List Profile :=
  (d.map Prod.snd).flatten

/-- A concrete token for test configurations. -/
def sampleToken : Token := ⟨str "eth", str "0xabc", []⟩

/-- Settings fixture: monitor, refresh interval, click-through. -/
def mkSettings (m : Option Int) (r : Int) (ct : Bool) : ProfileSettings :=
  ⟨m, 1, ct, true, r, false⟩

/-- Fixture: a group with interval 30 assigned to display 0. -/
def profileR30 : Profile := ⟨str "Low Risk", [sampleToken], mkSettings (some 0) 30 true⟩

/-- Fixture: a group with interval 15 assigned to display 0. -/
def profileR15 : Profile := ⟨str "High Risk", [sampleToken], mkSettings (some 0) 15 true⟩

/-- Fixture: a lone group with interval 5 assigned to display 0. -/
def profileR5 : Profile := ⟨str "Solo", [sampleToken], mkSettings (some 0) 5 true⟩

/-- Fixture: a group with one token on display 0, click-through enabled. -/
def ctProfileA : Profile := ⟨str "A", [sampleToken], mkSettings (some 0) 30 true⟩

/-- Fixture: a group with an EMPTY token list targeting display 0,
click-through disabled. -/
def ctProfileB : Profile := ⟨str "B", [], mkSettings (some 0) 30 false⟩

/-- A round body that always raises. -/
def alwaysFail : Nat → SchedState → Except PyExc (SchedState × List SchedEvent) :=
  fun _ _ => .error ⟨str "boom"⟩

/-! ### Dict lemmas -/

theorem dGet_dInsert (d : Results) (k : Str) (v : PriceSample) (k' : Str) :
    dGet (dInsert d k v) k' = if k = k' then some v else dGet d k' := by
  induction d with
  | nil => simp [dInsert, dGet]
  | cons hd tl ih =>
    obtain ⟨k0, v0⟩ := hd
    by_cases h0 : k0 = k
    · subst h0
      by_cases h1 : k0 = k'
      · subst h1; simp [dInsert, dGet]
      · simp [dInsert, dGet, h1]
    · by_cases h1 : k0 = k'
      · subst h1
        have hne : k ≠ k0 := fun h => h0 h.symm
        simp [dInsert, dGet, h0, hne]
      · simp [dInsert, dGet, h0, h1, ih]

theorem mem_dKeys_dInsert (d : Results) (k : Str) (v : PriceSample)
    (k' : Str) (h : k' ∈ dKeys (dInsert d k v)) : k' = k ∨ k' ∈ dKeys d := by
  induction d with
  | nil => simp_all [dInsert, dKeys]
  | cons hd tl ih =>
    obtain ⟨k0, v0⟩ := hd
    by_cases h0 : k0 = k
    · subst h0
      simp only [dInsert, if_pos] at h
      simp only [dKeys, List.map_cons, List.mem_cons] at h ⊢
      tauto
    · simp only [dInsert, if_neg h0] at h
      simp only [dKeys, List.map_cons, List.mem_cons] at h ⊢
      rcases h with h | h
      · tauto
      · rcases ih h with h | h <;> tauto

theorem dGet_eq_none_iff (d : Results) (k : Str) :
    dGet d k = none ↔ k ∉ dKeys d := by
  induction d with
  | nil => simp [dGet, dKeys]
  | cons hd tl ih =>
    obtain ⟨k0, v0⟩ := hd
    by_cases h0 : k0 = k
    · subst h0; simp [dGet, dKeys]
    · simp only [dGet, if_neg h0, dKeys, List.map_cons, List.mem_cons, ih]
      constructor
      · rintro hk (h | h)
        · exact h0 h.symm
        · exact hk h
      · intro hk
        exact fun h => hk (Or.inr h)

theorem dKeys_dInsert_nodup (d : Results) (k : Str) (v : PriceSample)
    (h : (dKeys d).Nodup) : (dKeys (dInsert d k v)).Nodup := by
  induction d with
  | nil => simp [dInsert, dKeys]
  | cons hd tl ih =>
    obtain ⟨k0, v0⟩ := hd
    rw [dKeys, List.map_cons, List.nodup_cons] at h
    by_cases h0 : k0 = k
    · subst h0
      rw [show dInsert ((k0, v0) :: tl) k0 v = (k0, v) :: tl from by simp [dInsert]]
      rw [dKeys, List.map_cons, List.nodup_cons]
      exact h
    · rw [show dInsert ((k0, v0) :: tl) k v = (k0, v0) :: dInsert tl k v from by
        simp [dInsert, h0]]
      rw [dKeys, List.map_cons, List.nodup_cons]
      refine ⟨fun hmem => ?_, ih h.2⟩
      rcases mem_dKeys_dInsert tl k v k0 hmem with h1 | h1
      · exact h0 h1
      · exact h.1 h1

theorem dGet_dUpdate_nodup (o : Results) :
    ∀ (d : Results) (k : Str), (dKeys o).Nodup →
      dGet (dUpdate d o) k = oOr (dGet o k) (dGet d k) := by
  induction o with
  | nil => intro d k _; simp [dUpdate, dGet, oOr]
  | cons hd tl ih =>
    intro d k hnd
    obtain ⟨k0, v0⟩ := hd
    rw [dKeys, List.map_cons, List.nodup_cons] at hnd
    have step : dUpdate d ((k0, v0) :: tl) = dUpdate (dInsert d k0 v0) tl := rfl
    rw [step, ih (dInsert d k0 v0) k hnd.2]
    by_cases h0 : k0 = k
    · subst h0
      have htl : dGet tl k0 = none := (dGet_eq_none_iff tl k0).mpr hnd.1
      rw [dGet_dInsert, if_pos rfl, htl]
      show oOr none (some v0) = oOr (dGet ((k0, v0) :: tl) k0) (dGet d k0)
      simp [dGet, oOr]
    · rw [dGet_dInsert, if_neg h0]
      show oOr (dGet tl k) (dGet d k) = oOr (dGet ((k0, v0) :: tl) k) (dGet d k)
      simp [dGet, h0]

/-! ### Keys written by a batch -/

theorem mem_dKeys_process_net (net : Str) (resp : Except PyExc (List RespTok)) :
    ∀ (acc : Results) (k : Str), k ∈ dKeys (process_net net resp acc) →
      (∃ a, k = key_for net a) ∨ k ∈ dKeys acc := by
  cases resp with
  | error e => intro acc k h; exact Or.inr h
  | ok toks =>
    induction toks with
    | nil => intro acc k h; exact Or.inr h
    | cons r rest ih =>
      intro acc k h
      have h1 := ih (dInsert acc (key_for net (normalize_address net r.address))
        ⟨r.price_usd, r.h24, r.m5⟩) k h
      rcases h1 with h1 | h1
      · exact Or.inl h1
      · rcases mem_dKeys_dInsert _ _ _ _ h1 with h2 | h2
        · exact Or.inl ⟨normalize_address net r.address, h2⟩
        · exact Or.inr h2

theorem process_net_nodup (net : Str) (resp : Except PyExc (List RespTok)) :
    ∀ (acc : Results), (dKeys acc).Nodup →
      (dKeys (process_net net resp acc)).Nodup := by
  cases resp with
  | error e => intro acc h; exact h
  | ok toks =>
    induction toks with
    | nil => intro acc h; exact h
    | cons r rest ih =>
      intro acc h
      exact ih _ (dKeys_dInsert_nodup _ _ _ h)

theorem collect_results_nodup (nets : List (Str × Except PyExc (List RespTok))) :
    (dKeys (collect_results nets)).Nodup := by
  suffices h : ∀ (acc : Results), (dKeys acc).Nodup →
      (dKeys (nets.foldl (fun acc nr => process_net nr.1 nr.2 acc) acc)).Nodup by
    exact h [] (by simp [dKeys])
  induction nets with
  | nil => intro acc h; exact h
  | cons nr rest ih =>
    intro acc h
    exact ih _ (process_net_nodup nr.1 nr.2 acc h)

theorem mem_dKeys_collect_pair (netA netB : Str) (e : PyExc)
    (toksB : List RespTok) (k : Str)
    (h : k ∈ dKeys (collect_results [(netA, .error e), (netB, .ok toksB)])) :
    ∃ a, k = key_for netB a := by
  have hc : collect_results [(netA, .error e), (netB, .ok toksB)] =
      process_net netB (.ok toksB) [] := rfl
  rw [hc] at h
  rcases mem_dKeys_process_net netB (.ok toksB) [] k h with h1 | h1
  · exact h1
  · simp [dKeys] at h1

/-! ### Colon-free network ids give disjoint key spaces -/

theorem append_colon_inj (n1 : Str) :
    ∀ (n2 a1 a2 : Str), ':' ∉ n1 → ':' ∉ n2 →
      n1 ++ ':' :: a1 = n2 ++ ':' :: a2 → n1 = n2 ∧ a1 = a2 := by
  induction n1 with
  | nil =>
    intro n2 a1 a2 h1 h2 he
    cases n2 with
    | nil => simpa using he
    | cons c n2' =>
      exfalso
      simp at he
      exact h2 (he.1 ▸ List.mem_cons_self c n2')
  | cons c1 n1' ih =>
    intro n2 a1 a2 h1 h2 he
    cases n2 with
    | nil =>
      exfalso
      simp at he
      exact h1 (he.1 ▸ List.mem_cons_self c1 n1')
    | cons c2 n2' =>
      simp only [List.cons_append, List.cons.injEq] at he
      obtain ⟨hc, ht⟩ := he
      have h1' : ':' ∉ n1' := fun h => h1 (List.mem_cons_of_mem c1 h)
      have h2' : ':' ∉ n2' := fun h => h2 (List.mem_cons_of_mem c2 h)
      obtain ⟨hn, ha⟩ := ih n2' a1 a2 h1' h2' ht
      exact ⟨by rw [hc, hn], ha⟩

theorem key_for_ne (netA netB a b : Str) (hA : ':' ∉ netA) (hB : ':' ∉ netB)
    (hne : netA ≠ netB) : key_for netA a ≠ key_for netB b := by
  intro h
  exact hne (append_colon_inj netA netB _ _ hA hB h).1

/-! ### Claim theorems: scheduler error handling and cache semantics -/

/-- Claim C1: every exception raised inside one round of the refresh scheduler
loop is caught at the round boundary; the handler logs the error, sleeps a
fixed 2 seconds, and re-ensures the network session, and the loop then runs
its next iteration — for every round body and any number of rounds the loop
ends in `.ok` (it never terminates through an exception) having run exactly
`n` rounds. -/
theorem refresh_loop_survives_round_errors
    (body : Nat → SchedState → Except PyExc (SchedState × List SchedEvent))
    (n k : Nat) (s : SchedState) :
    (∃ sf trace, run_refresh_loop body n k s = .ok (sf, trace) ∧
      trace.length = n) ∧
    (∀ j s0 e, body j s0 = .error e →
      try_round (body j) s0 =
        (ensure_session s0, [.logError e, .sleep 2, .ensureSession])) := by
  constructor
  · induction n generalizing k s with
    | zero => exact ⟨s, [], rfl, rfl⟩
    | succ n ih =>
      obtain ⟨sf, tr, hrun, hlen⟩ := ih (k + 1) (try_round (body k) s).1
      refine ⟨sf, (try_round (body k) s).2 :: tr, ?_, by simp [hlen]⟩
      simp only [run_refresh_loop, hrun]
  · intro j s0 e h
    simp [try_round, h]

/-- Witness for C1: a body that raises in every round still yields three
completed rounds, and the handler emits exactly log, 2s sleep, session
re-ensure. -/
theorem refresh_loop_survives_round_errors_witness :
    (∃ sf trace,
        run_refresh_loop alwaysFail 3 0 ⟨none, 0⟩ = .ok (sf, trace) ∧
        trace.length = 3) ∧
    try_round (alwaysFail 0) ⟨none, 0⟩ =
      (ensure_session ⟨none, 0⟩,
        [.logError ⟨str "boom"⟩, .sleep 2, .ensureSession]) :=
  ⟨(refresh_loop_survives_round_errors alwaysFail 3 0 ⟨none, 0⟩).1,
   (refresh_loop_survives_round_errors alwaysFail 3 0 ⟨none, 0⟩).2
     0 ⟨none, 0⟩ ⟨str "boom"⟩ rfl⟩

/-- Claim C3: within one fetch round of a group, when network A's batch fails
and network B's succeeds, every key of network A reads exactly as before the
round, every sample collected from B's payload is present afterwards, and a
key that held a sample before the round still holds one (a failed batch never
clears prior entries). -/
theorem failed_batch_isolation (cache : Results) (netA netB : Str)
    (e : PyExc) (toksB : List RespTok) (addrA : Str)
    (hA : ':' ∉ netA) (hB : ':' ∉ netB) (hne : netA ≠ netB) :
    (dGet (run_group_round cache [(netA, .error e), (netB, .ok toksB)])
        (key_for netA addrA) =
      dGet cache (key_for netA addrA)) ∧
    (∀ k w, dGet (collect_results [(netA, .error e), (netB, .ok toksB)]) k
        = some w →
      dGet (run_group_round cache [(netA, .error e), (netB, .ok toksB)]) k
        = some w) ∧
    (∀ k w, dGet cache k = some w →
      dGet (run_group_round cache [(netA, .error e), (netB, .ok toksB)]) k
        ≠ none) := by
  have hnodup := collect_results_nodup [(netA, .error e), (netB, .ok toksB)]
  have hupd := fun k => dGet_dUpdate_nodup
    (collect_results [(netA, .error e), (netB, .ok toksB)]) cache k hnodup
  refine ⟨?_, ?_, ?_⟩
  · have hnone : dGet (collect_results [(netA, .error e), (netB, .ok toksB)])
        (key_for netA addrA) = none := by
      rw [dGet_eq_none_iff]
      intro hmem
      obtain ⟨a, ha⟩ := mem_dKeys_collect_pair netA netB e toksB _ hmem
      exact key_for_ne netA netB addrA a hA hB hne ha
    rw [run_group_round, hupd, hnone]
    rfl
  · intro k w h
    rw [run_group_round, hupd, h]
    rfl
  · intro k w h
    rw [run_group_round, hupd]
    cases hc : dGet (collect_results [(netA, .error e), (netB, .ok toksB)]) k with
    | none => rw [h]; simp [oOr]
    | some u => simp [oOr]

/-- Witness for C3: with a cached sample for an `eth` token, a failed `eth`
batch and a successful `bsc` batch, the `eth` sample survives unchanged and
the `bsc` sample is stored. -/
theorem failed_batch_isolation_witness :
    dGet (run_group_round
        [(key_for (str "eth") (str "0xaa"), ⟨some 1, none, none⟩)]
        [((str "eth"), .error ⟨str "timeout"⟩),
         ((str "bsc"), .ok [⟨str "0xbb", some 2, none, none⟩])])
      (key_for (str "eth") (str "0xaa")) =
      some ⟨some 1, none, none⟩ := by
  have h := (failed_batch_isolation
    [(key_for (str "eth") (str "0xaa"), ⟨some 1, none, none⟩)]
    (str "eth") (str "bsc") ⟨str "timeout"⟩
    [⟨str "0xbb", some 2, none, none⟩] (str "0xaa")
    (by decide) (by decide) (by decide)).1
  rw [h]
  decide

/-- Claim C10: the per-group result cache is merged per returned token, never
replaced wholesale: a key collected from the round's responses is overwritten
with its new sample, a key absent from all responses (in particular a
requested token the response omitted) reads exactly as before, and no key
present before the round is ever deleted. -/
theorem result_cache_merge (cache : Results)
    (nets : List (Str × Except PyExc (List RespTok))) (k : Str)
    (w : PriceSample) :
    (dGet (collect_results nets) k = some w →
      dGet (run_group_round cache nets) k = some w) ∧
    (dGet (collect_results nets) k = none →
      dGet (run_group_round cache nets) k = dGet cache k) ∧
    (dGet cache k = some w → dGet (run_group_round cache nets) k ≠ none) := by
  have hupd := dGet_dUpdate_nodup (collect_results nets) cache k
    (collect_results_nodup nets)
  refine ⟨?_, ?_, ?_⟩
  · intro h
    rw [run_group_round, hupd, h]
    rfl
  · intro h
    rw [run_group_round, hupd, h]
    rfl
  · intro h
    rw [run_group_round, hupd]
    cases hc : dGet (collect_results nets) k with
    | none => rw [h]; simp [oOr]
    | some u => simp [oOr]

/-- Witness for C10: a token requested but absent from the (successful)
response keeps its cached sample; the returned token is overwritten. -/
theorem result_cache_merge_witness :
    dGet (run_group_round
        [(key_for (str "eth") (str "0xaa"), ⟨some 1, none, none⟩)]
        [((str "eth"), .ok [⟨str "0xbb", some 2, none, none⟩])])
      (key_for (str "eth") (str "0xaa")) = some ⟨some 1, none, none⟩ := by
  have h := (result_cache_merge
    [(key_for (str "eth") (str "0xaa"), ⟨some 1, none, none⟩)]
    [((str "eth"), .ok [⟨str "0xbb", some 2, none, none⟩])]
    (key_for (str "eth") (str "0xaa")) ⟨some 1, none, none⟩).2.1 (by decide)
  rw [h]
  decide

/-! ### Lower-casing lemmas for address canonicalization -/

theorem toNat_ofNat_valid (n : Nat) (h : n.isValidChar) :
    (Char.ofNat n).toNat = n := by
  rw [Char.ofNat, dif_pos h]
  exact rfl

theorem char_toLower_eq (c : Char) :
    Char.toLower c =
      if c.toNat ≥ 65 ∧ c.toNat ≤ 90 then Char.ofNat (c.toNat + 32) else c := rfl

theorem char_toLower_idem (c : Char) :
    Char.toLower (Char.toLower c) = Char.toLower c := by
  rw [char_toLower_eq (Char.toLower c)]
  by_cases h : c.toNat ≥ 65 ∧ c.toNat ≤ 90
  · have hv : (c.toNat + 32).isValidChar := Or.inl (by omega)
    have h2 : (Char.toLower c).toNat = c.toNat + 32 := by
      rw [char_toLower_eq c, if_pos h]
      exact toNat_ofNat_valid _ hv
    rw [if_neg (by rw [h2]; omega)]
  · have h2 : Char.toLower c = c := by rw [char_toLower_eq c, if_neg h]
    rw [h2, if_neg h]

theorem map_toLower_idem (l : List Char) :
    (l.map Char.toLower).map Char.toLower = l.map Char.toLower := by
  rw [List.map_map]
  exact List.map_congr_left (fun c _ => char_toLower_idem c)

theorem isPrefixOf_0x_cons (l : List Char) :
    ((['0', 'x'] : List Char).isPrefixOf ('0' :: 'x' :: l)) = true := by
  simp [List.isPrefixOf]

/-- Claim C4: address canonicalization is idempotent for every network id and
address; for hex-prefixed addresses (those starting with `0x`) it is
case-insensitive — two such addresses equal up to letter case canonicalize to
the same string — and for addresses without the hex-style prefix it is the
identity. -/
theorem normalize_address_canonical (net a b : Str) :
    (normalize_address net (normalize_address net a) =
      normalize_address net a) ∧
    ((['0', 'x'] : List Char).isPrefixOf a = true →
      (['0', 'x'] : List Char).isPrefixOf b = true →
      a.map Char.toLower = b.map Char.toLower →
      normalize_address net a = normalize_address net b) ∧
    (¬ (['0', 'x'] : List Char).isPrefixOf a = true →
      normalize_address net a = a) := by
  refine ⟨?_, ?_, ?_⟩
  · by_cases ha : a = []
    · subst ha; simp [normalize_address]
    · by_cases hp : (['0', 'x'] : List Char).isPrefixOf a = true
      · obtain ⟨t, rfl⟩ : ∃ t, a = '0' :: 'x' :: t := by
          obtain ⟨t, ht⟩ := List.isPrefixOf_iff_prefix.mp hp
          exact ⟨t, ht.symm⟩
        have hn : normalize_address net ('0' :: 'x' :: t) =
            ('0' :: 'x' :: t).map Char.toLower := by
          simp [normalize_address, hp]
        have h0 : ('0' :: 'x' :: t).map Char.toLower =
            '0' :: 'x' :: t.map Char.toLower := by
          have hc0 : Char.toLower '0' = '0' := by decide
          have hcx : Char.toLower 'x' = 'x' := by decide
          simp [hc0, hcx]
        rw [hn, h0, normalize_address]
        rw [if_neg (by simp), if_pos (isPrefixOf_0x_cons (t.map Char.toLower))]
        have := map_toLower_idem ('0' :: 'x' :: t)
        rw [h0] at this
        rw [this]
      · have hn : normalize_address net a = a := by
          simp [normalize_address, ha, hp]
        rw [hn, hn]
  · intro hpa hpb hmap
    have ha : a ≠ [] := by
      obtain ⟨t, ht⟩ := List.isPrefixOf_iff_prefix.mp hpa
      rw [← ht]; simp
    have hb : b ≠ [] := by
      obtain ⟨t, ht⟩ := List.isPrefixOf_iff_prefix.mp hpb
      rw [← ht]; simp
    rw [normalize_address, if_neg ha, if_pos hpa,
        normalize_address, if_neg hb, if_pos hpb, hmap]
  · intro hp
    by_cases ha : a = []
    · subst ha; simp [normalize_address]
    · simp [normalize_address, ha, hp]

/-- Witness for C4: `0xAbC` and `0xaBc` differ only in case and canonicalize
to the same string; `So1abc` has no hex prefix and is untouched. -/
theorem normalize_address_canonical_witness :
    normalize_address (str "eth") (str "0xAbC") =
      normalize_address (str "eth") (str "0xaBc") ∧
    normalize_address (str "sol") (str "So1abc") = str "So1abc" :=
  ⟨(normalize_address_canonical (str "eth") (str "0xAbC") (str "0xaBc")).2.1
      (by decide) (by decide) (by decide),
   (normalize_address_canonical (str "sol") (str "So1abc") (str "")).2.2
      (by decide)⟩

/-! ### Price formatting, marquee trigger, display-name resolution -/

/-- Claim C5: the price formatter maps an absent price to the placeholder, a
price at least 100 to the grouped 2-decimal form, at least 1 to the 3-decimal
form, at least 0.1 to the 4-decimal form, and anything else to the 8-decimal
form with trailing zeros and a dangling decimal point stripped, all behind
the `$` marker; the boundary cases 99.999, 100, 0.999, 1 and 0.00000001234
render as claimed. -/
theorem price_str_formatting (q : ℚ) :
    price_str none = str "—" ∧
    (100 ≤ q → price_str (some q) = '$' :: formatFixed q 2 true) ∧
    (¬ 100 ≤ q → 1 ≤ q → price_str (some q) = '$' :: formatFixed q 3 true) ∧
    (¬ 100 ≤ q → ¬ 1 ≤ q → mkRat 1 10 ≤ q →
      price_str (some q) = '$' :: formatFixed q 4 false) ∧
    (¬ 100 ≤ q → ¬ 1 ≤ q → ¬ mkRat 1 10 ≤ q →
      price_str (some q) =
        '$' :: rstripDot (rstripZeros (formatFixed q 8 false))) ∧
    price_str (some (mkRat 99999 1000)) = str "$99.999" ∧
    price_str (some 100) = str "$100.00" ∧
    price_str (some (mkRat 999 1000)) = str "$0.9990" ∧
    price_str (some 1) = str "$1.000" ∧
    price_str (some (mkRat 1234 100000000000)) = str "$0.00000001" ∧
    price_str (some 1234567) = str "$1,234,567.00" := by
  refine ⟨rfl, ?_, ?_, ?_, ?_,
    by decide, by decide, by decide, by decide, by decide, by decide⟩ <;>
    intros <;> simp [price_str, *]

/-- Witness for C5: 0.05 falls in the stripped 8-decimal branch. -/
theorem price_str_formatting_witness :
    price_str (some (mkRat 5 100)) =
      '$' :: rstripDot (rstripZeros (formatFixed (mkRat 5 100) 8 false)) :=
  (price_str_formatting (mkRat 5 100)).2.2.2.2.1
    (by decide) (by decide) (by decide)

/-- Claim C7: after an item-list update, marquee mode is engaged iff the item
count exceeds 10 or the natural track width exceeds the container width minus
the fixed 20px margin; exactly 10 fitting items center statically and 11
items scroll regardless of width. -/
theorem marquee_trigger_boundary (nItems : Nat) (trackW containerW : Int)
    (st : MarqueeState) :
    ((update_marquee_state nItems trackW containerW st).marquee = true ↔
      (10 < nItems ∨ containerW - 20 < trackW)) ∧
    (nItems = 10 → trackW ≤ containerW - 20 →
      (update_marquee_state nItems trackW containerW st).marquee = false) ∧
    (nItems = 11 →
      (update_marquee_state nItems trackW containerW st).marquee = true) := by
  refine ⟨?_, ?_, ?_⟩
  · simp [update_marquee_state]
  · intro h10 hfit
    subst h10
    simp [update_marquee_state, not_lt.mpr hfit]
  · intro h11
    subst h11
    simp [update_marquee_state]

/-- Witness for C7: 10 items fitting in a 1000px container stay static; 11
items in the same geometry scroll. -/
theorem marquee_trigger_boundary_witness :
    (update_marquee_state 10 900 1000 ⟨false, 0⟩).marquee = false ∧
    (update_marquee_state 11 900 1000 ⟨false, 0⟩).marquee = true :=
  ⟨(marquee_trigger_boundary 10 900 1000 ⟨false, 0⟩).2.1 rfl (by decide),
   (marquee_trigger_boundary 11 900 1000 ⟨false, 0⟩).2.2 rfl⟩

/-- Claim C9: the rendered display name is the token's custom name when the
group's `use_custom_names` is on and the custom name is non-empty (custom
names are stored stripped, hence the `pyStrip custom = custom` hypothesis),
else the cached feed-provided name when present (and non-empty), else the
address shortened to first 6 + ellipsis + last 4 only when it has more than
10 characters. -/
theorem display_name_resolution (uc : Bool) (custom : Str)
    (cached : Option Str) (addr s : Str) :
    (pyStrip custom = custom → uc = true → custom ≠ [] →
      build_item_name uc custom cached addr = custom) ∧
    ((uc = false ∨ pyStrip custom = []) → cached = some s → s ≠ [] →
      build_item_name uc custom cached addr = s) ∧
    ((uc = false ∨ pyStrip custom = []) → cached = none →
      build_item_name uc custom cached addr = short_addr addr) ∧
    (addr.length ≤ 10 → short_addr addr = addr) ∧
    (10 < addr.length →
      short_addr addr = addr.take 6 ++ '…' :: addr.drop (addr.length - 4)) := by
  refine ⟨?_, ?_, ?_, ?_, ?_⟩
  · intro hstrip huc hne
    simp [build_item_name, huc, hstrip, hne]
  · rintro (huc | hstrip) hc hne <;> subst hc
    · simp [build_item_name, huc, hne]
    · simp [build_item_name, hstrip, hne]
  · rintro (huc | hstrip) hc <;> subst hc
    · simp [build_item_name, huc]
    · simp [build_item_name, hstrip]
  · intro h
    simp [short_addr, h]
  · intro h
    simp [short_addr, not_le.mpr h]

/-- Witness for C9: custom name wins when enabled; the cached name is used
otherwise; a 12-character address is shortened. -/
theorem display_name_resolution_witness :
    build_item_name true (str "PEPE") (some (str "Pepe Coin")) (str "0xabc")
      = str "PEPE" ∧
    build_item_name false (str "PEPE") (some (str "Pepe Coin")) (str "0xabc")
      = str "Pepe Coin" ∧
    short_addr (str "0x1234567890") = str "0x1234…7890" :=
  ⟨(display_name_resolution true (str "PEPE") (some (str "Pepe Coin"))
      (str "0xabc") (str "Pepe Coin")).1 (by decide) rfl (by decide),
   (display_name_resolution false (str "PEPE") (some (str "Pepe Coin"))
      (str "0xabc") (str "Pepe Coin")).2.1 (Or.inl rfl) rfl (by decide),
   by
    have h := (display_name_resolution false (str "x") none
      (str "0x1234567890") (str "x")).2.2.2.2 (by decide)
    rw [h]
    decide⟩

/-! ### Assignment resolver lemmas -/

theorem flatVals_cons (k : Int) (l : List Profile)
    (tl : List (Int × List Profile)) :
    flatVals ((k, l) :: tl) = l ++ flatVals tl := rfl

theorem lookupMon_insertAppend (acc : List (Int × List Profile)) (m : Int)
    (p : Profile) (m' : Int) :
    lookupMon (insertAppend acc m p) m' =
      if m = m' then lookupMon acc m' ++ [p] else lookupMon acc m' := by
  induction acc with
  | nil =>
    by_cases h : m = m' <;> simp [insertAppend, lookupMon, h]
  | cons hd tl ih =>
    obtain ⟨k, l⟩ := hd
    by_cases hk : k = m
    · subst hk
      by_cases h' : k = m'
      · subst h'; simp [insertAppend, lookupMon]
      · simp [insertAppend, lookupMon, h']
    · by_cases h' : k = m'
      · subst h'
        have hm : m ≠ k := fun h => hk h.symm
        simp [insertAppend, lookupMon, hk, hm]
      · simp [insertAppend, lookupMon, hk, h', ih]

theorem lookupMon_fold (ps : List Profile) :
    ∀ (acc : List (Int × List Profile)) (m : Int),
      lookupMon (ps.foldl monStep acc) m =
        lookupMon acc m ++ assigned_filter ps m := by
  induction ps with
  | nil => intro acc m; simp [assigned_filter]
  | cons p ps ih =>
    intro acc m
    rw [List.foldl_cons]
    cases hmi : p.settings.monitor_index with
    | none =>
      rw [show monStep acc p = acc from by simp [monStep, hmi]]
      rw [ih acc m]
      have : assigned_filter (p :: ps) m = assigned_filter ps m := by
        simp [assigned_filter, List.filter_cons, hmi]
      rw [this]
    | some m' =>
      by_cases hte : p.tokens.isEmpty = true
      · rw [show monStep acc p = acc from by simp [monStep, hmi, hte]]
        rw [ih acc m]
        have : assigned_filter (p :: ps) m = assigned_filter ps m := by
          simp [assigned_filter, List.filter_cons, hmi, hte]
        rw [this]
      · have htf : p.tokens.isEmpty = false := by
          revert hte; cases p.tokens.isEmpty <;> simp
        rw [show monStep acc p = insertAppend acc m' p from by
          simp [monStep, hmi, htf]]
        rw [ih _ m, lookupMon_insertAppend]
        by_cases hm : m' = m
        · subst hm
          rw [if_pos rfl]
          have : assigned_filter (p :: ps) m' = p :: assigned_filter ps m' := by
            simp [assigned_filter, List.filter_cons, hmi, htf]
          rw [this]
          simp
        · rw [if_neg hm]
          have : assigned_filter (p :: ps) m = assigned_filter ps m := by
            simp [assigned_filter, List.filter_cons, hmi, htf, hm]
          rw [this]

theorem flatVals_insertAppend (acc : List (Int × List Profile)) (m : Int)
    (p : Profile) :
    List.Perm (flatVals (insertAppend acc m p)) (flatVals acc ++ [p]) := by
  induction acc with
  | nil => simp [insertAppend, flatVals]
  | cons hd tl ih =>
    obtain ⟨k, l⟩ := hd
    by_cases hk : k = m
    · subst hk
      rw [show insertAppend ((k, l) :: tl) k p = (k, l ++ [p]) :: tl from by
        simp [insertAppend]]
      rw [flatVals_cons, flatVals_cons]
      have h1 : List.Perm ([p] ++ flatVals tl) (flatVals tl ++ [p]) :=
        List.perm_append_comm
      have h2 := List.Perm.append_left l h1
      simpa [List.append_assoc] using h2
    · rw [show insertAppend ((k, l) :: tl) m p = (k, l) :: insertAppend tl m p
        from by simp [insertAppend, hk]]
      rw [flatVals_cons, flatVals_cons]
      have h2 := List.Perm.append_left l ih
      simpa [List.append_assoc] using h2

theorem flatVals_fold (ps : List Profile) :
    ∀ acc, List.Perm (flatVals (ps.foldl monStep acc))
      (flatVals acc ++ assignedAll ps) := by
  induction ps with
  | nil => intro acc; simp [assignedAll]
  | cons p ps ih =>
    intro acc
    rw [List.foldl_cons]
    cases hmi : p.settings.monitor_index with
    | none =>
      rw [show monStep acc p = acc from by simp [monStep, hmi]]
      have h : assignedAll (p :: ps) = assignedAll ps := by
        simp [assignedAll, List.filter_cons, hmi]
      rw [h]
      exact ih acc
    | some m' =>
      by_cases hte : p.tokens.isEmpty = true
      · rw [show monStep acc p = acc from by simp [monStep, hmi, hte]]
        have h : assignedAll (p :: ps) = assignedAll ps := by
          simp [assignedAll, List.filter_cons, hmi, hte]
        rw [h]
        exact ih acc
      · have htf : p.tokens.isEmpty = false := by
          revert hte; cases p.tokens.isEmpty <;> simp
        rw [show monStep acc p = insertAppend acc m' p from by
          simp [monStep, hmi, htf]]
        have hCons : assignedAll (p :: ps) = p :: assignedAll ps := by
          simp [assignedAll, List.filter_cons, hmi, htf]
        rw [hCons]
        have h1 := ih (insertAppend acc m' p)
        have h2 := List.Perm.append_right (assignedAll ps)
          (flatVals_insertAppend acc m' p)
        have h3 := h1.trans h2
        simpa [List.append_assoc] using h3

theorem flatVals_mon_to_profiles (ps : List Profile) :
    List.Perm (flatVals (mon_to_profiles ps)) (assignedAll ps) := by
  simpa [mon_to_profiles, flatVals] using flatVals_fold ps []

theorem le_foldl_max (l : List Int) (b : Int) : b ≤ l.foldl max b := by
  induction l generalizing b with
  | nil => exact le_refl b
  | cons x t ih => exact le_trans (le_max_left b x) (ih (max b x))

theorem mem_le_foldl_max (l : List Int) (x : Int) :
    ∀ b : Int, x ∈ l → x ≤ l.foldl max b := by
  induction l with
  | nil => intro b h; cases h
  | cons y t ih =>
    intro b h
    rcases List.mem_cons.mp h with h | h
    · subst h
      exact le_trans (le_max_right b x) (le_foldl_max t (max b x))
    · exact ih (max b y) h

theorem foldl_max_choice (l : List Int) :
    ∀ b : Int, l.foldl max b = b ∨ l.foldl max b ∈ l := by
  induction l with
  | nil => intro b; exact Or.inl rfl
  | cons y t ih =>
    intro b
    rcases ih (max b y) with h | h
    · rcases max_choice b y with hm | hm
      · left; rw [List.foldl_cons, h, hm]
      · right; rw [List.foldl_cons, h, hm]; exact List.mem_cons_self y t
    · right; exact List.mem_cons_of_mem y h

theorem foldl_buckets (f : Int → Profile → Int)
    (d : List (Int × List Profile)) :
    ∀ r : Int, d.foldl (fun r pr => pr.2.foldl f r) r =
      (flatVals d).foldl f r := by
  induction d with
  | nil => intro r; rfl
  | cons hd tl ih =>
    intro r
    obtain ⟨k, l⟩ := hd
    rw [List.foldl_cons, ih (l.foldl f r), flatVals_cons, List.foldl_append]

/-! ### Claim theorems: assignment, interval, click-through -/

/-- Claim C6: a group is recorded in the display assignment under its
configured display index iff its display target is that index and its token
list is non-empty; groups with a null target or an empty token list are
excluded, and the included groups appear in stable declaration order (the
assignment for a display is exactly the declaration-order filter). -/
theorem assignment_resolver_filter (ps : List Profile) (m : Int)
    (p : Profile) :
    lookupMon (mon_to_profiles ps) m = assigned_filter ps m ∧
    (p ∈ lookupMon (mon_to_profiles ps) m ↔
      p ∈ ps ∧ p.settings.monitor_index = some m ∧ p.tokens ≠ []) ∧
    (p.settings.monitor_index = none →
      p ∉ lookupMon (mon_to_profiles ps) m) ∧
    (p.tokens = [] → p ∉ lookupMon (mon_to_profiles ps) m) := by
  have hmain : lookupMon (mon_to_profiles ps) m = assigned_filter ps m := by
    have h := lookupMon_fold ps [] m
    simpa [mon_to_profiles, lookupMon] using h
  have hmem : p ∈ lookupMon (mon_to_profiles ps) m ↔
      p ∈ ps ∧ p.settings.monitor_index = some m ∧ p.tokens ≠ [] := by
    rw [hmain, assigned_filter, List.mem_filter]
    constructor
    · rintro ⟨h1, h2⟩
      simp only [Bool.and_eq_true, decide_eq_true_eq, Bool.not_eq_true',
        List.isEmpty_eq_false] at h2
      exact ⟨h1, h2.1, h2.2⟩
    · rintro ⟨h1, h2, h3⟩
      refine ⟨h1, ?_⟩
      simp only [Bool.and_eq_true, decide_eq_true_eq, Bool.not_eq_true',
        List.isEmpty_eq_false]
      exact ⟨h2, h3⟩
  refine ⟨hmain, hmem, ?_, ?_⟩
  · intro hnone hmem'
    rw [hmem] at hmem'
    rw [hnone] at hmem'
    cases hmem'.2.1
  · intro hnil hmem'
    rw [hmem] at hmem'
    exact hmem'.2.2 hnil

/-- Witness for C6: a group with an empty token list is not assigned even
though its display target is set. -/
theorem assignment_resolver_filter_witness :
    ctProfileB ∉ lookupMon (mon_to_profiles [ctProfileA, ctProfileB]) 0 :=
  (assignment_resolver_filter [ctProfileA, ctProfileB] 0 ctProfileB).2.2.2 rfl

/-- Claim C2: the round interval is `max(10, max refresh_sec over exactly the
assigned groups)` — it is at least 10, dominates every assigned group's
interval, and is either the floor 10 or some assigned group's interval; the
claimed examples: intervals 30 and 15 give 30, a lone interval 5 gives 10. -/
theorem round_interval_floor_and_max (ps : List Profile) (p : Profile) :
    10 ≤ round_interval ps ∧
    (p ∈ assignedAll ps → p.settings.refresh_sec ≤ round_interval ps) ∧
    (round_interval ps = 10 ∨
      ∃ q ∈ assignedAll ps, round_interval ps = q.settings.refresh_sec) ∧
    round_interval [profileR30, profileR15] = 30 ∧
    round_interval [profileR5] = 10 := by
  have hflat := flatVals_mon_to_profiles ps
  have hR : (mon_to_profiles ps).foldl
      (fun r pr => pr.2.foldl (fun r2 q => max r2 q.settings.refresh_sec) r) 0 =
      ((flatVals (mon_to_profiles ps)).map
        (fun q => q.settings.refresh_sec)).foldl max 0 := by
    rw [foldl_buckets, List.foldl_map]
  refine ⟨le_max_right _ 10, ?_, ?_, by decide, by decide⟩
  · intro hp
    have hmem : p ∈ flatVals (mon_to_profiles ps) := hflat.mem_iff.mpr hp
    have hmem2 : p.settings.refresh_sec ∈
        (flatVals (mon_to_profiles ps)).map (fun q => q.settings.refresh_sec) :=
      List.mem_map.mpr ⟨p, hmem, rfl⟩
    have hle := mem_le_foldl_max _ _ 0 hmem2
    simp only [round_interval]
    refine le_trans ?_ (le_max_left _ 10)
    rw [hR]
    exact hle
  · simp only [round_interval]
    rcases foldl_max_choice ((flatVals (mon_to_profiles ps)).map
        (fun q => q.settings.refresh_sec)) 0 with h | h
    · left
      rw [hR, h]
      norm_num
    · obtain ⟨q, hq, hval⟩ := List.mem_map.mp h
      have hq' : q ∈ assignedAll ps := hflat.mem_iff.mp hq
      rcases le_total (((flatVals (mon_to_profiles ps)).map
          (fun r => r.settings.refresh_sec)).foldl max 0) 10 with hle | hge
      · left
        rw [hR, max_eq_right hle]
      · right
        exact ⟨q, hq', by rw [hR, max_eq_left hge, ← hval]⟩

/-- Witness for C2: the assigned 30-second group's interval bounds the round
interval of the 30/15 configuration. -/
theorem round_interval_floor_and_max_witness :
    profileR30.settings.refresh_sec ≤ round_interval [profileR30, profileR15] :=
  (round_interval_floor_and_max [profileR30, profileR15] profileR30).2.1
    (by decide)

/-- Claim C8 fails on the code: on display 0 the only assigned group
(`ctProfileA`, non-empty tokens) has click-through enabled, yet the per-round
aggregation in `Controller.refresh_loop` also ranges over `ctProfileB`, a
group with an EMPTY token list targeting display 0, and so disables
click-through. -/
theorem click_through_aggregation_counterexample :
    lookupMon (mon_to_profiles [ctProfileA, ctProfileB]) 0 = [ctProfileA] ∧
    ctProfileA.settings.click_through = true ∧
    click_through_round [ctProfileA, ctProfileB] 0 = false := by
  decide

/-- Claim C8 (amended): per refresh round, click-through is enabled iff every
group whose display target equals the display index — including groups with
an empty token list — has click-through enabled; at start-up the aggregation
ranges over the assigned groups only. -/
theorem click_through_aggregation_amended (ps : List Profile) (m : Int) :
    (click_through_round ps m = true ↔
      ∀ p ∈ ps, p.settings.monitor_index = some m →
        p.settings.click_through = true) ∧
    (click_through_start ps m = true ↔
      ∀ p ∈ lookupMon (mon_to_profiles ps) m,
        p.settings.click_through = true) := by
  constructor
  · simp only [click_through_round]
    by_cases he : (ps.filter
        (fun p => decide (p.settings.monitor_index = some m))).isEmpty = true
    · rw [if_pos he]
      simp only [true_iff]
      intro p hp hm
      exfalso
      rw [List.isEmpty_iff] at he
      have hmem : p ∈ ps.filter
          (fun p => decide (p.settings.monitor_index = some m)) :=
        List.mem_filter.mpr ⟨hp, by simp [hm]⟩
      rw [he] at hmem
      cases hmem
    · rw [if_neg he, List.all_eq_true]
      constructor
      · intro h p hp hm
        exact h p (List.mem_filter.mpr ⟨hp, by simp [hm]⟩)
      · intro h p hp
        obtain ⟨hp1, hp2⟩ := List.mem_filter.mp hp
        exact h p hp1 (by simpa using hp2)
  · rw [click_through_start, List.all_eq_true]

/-- Witness for the amended C8: with only the assigned group present the
round aggregation enables click-through. -/
theorem click_through_aggregation_amended_witness :
    click_through_round [ctProfileA] 0 = true :=
  (click_through_aggregation_amended [ctProfileA] 0).1.mpr
    (by
      intro p hp hm
      rw [List.mem_singleton] at hp
      subst hp
      decide)

end CrypTick
